import Mathlib

/-!
Verification of the core algorithms of `imapbackup38.py`, an incremental
IMAP-folder-to-mbox backup/relay tool.  The Python functions are shallowly
embedded as executable Lean functions over `List Char` (strings) and
`List Nat` (byte strings); server and filesystem interactions are modelled
as explicit inputs.  The theorems at the end of the file settle the claims
of the specification against these embeddings.
-/

set_option maxHeartbeats 1000000

namespace ImapBackup

/-- Strings are modelled as lists of characters. -/
abbrev Str := List Char

theorem dropWhile_len_le (p : Char → Bool) (l : List Char) :
    (l.dropWhile p).length ≤ l.length := by
  induction l with
  | nil => simp
  | cons c t ih =>
    simp only [List.dropWhile]
    cases p c <;> simp <;> omega

theorem takeWhile_len_le (p : Char → Bool) (l : List Char) :
    (l.takeWhile p).length ≤ l.length := by
  induction l with
  | nil => simp
  | cons c t ih =>
    simp only [List.takeWhile]
    cases p c <;> simp <;> omega

/-- ASCII whitespace, the class matched by the regex `\s` and stripped by
Python's `str.strip`. -/
def isSpaceChar (c : Char) : Bool :=
  c == ' ' || c == '\t' || c == '\n' || c == '\r' || c == '\x0b' || c == '\x0c'

/-- Python's `str.strip()`: drop whitespace from both ends. -/
def pyStrip (s : Str) : Str :=
  ((s.dropWhile isSpaceChar).reverse.dropWhile isSpaceChar).reverse

/-- The substitution `BLANKS_RE.sub(' ', s)` with `BLANKS_RE = re.compile(r'\s+')`:
every maximal run of whitespace becomes a single space. -/
def collapseWs : Str → Str
  | [] => []
  | [c] => if isSpaceChar c then [' '] else [c]
  | c :: d :: rest =>
    if isSpaceChar c then
      if isSpaceChar d then collapseWs (d :: rest)
      else ' ' :: d :: collapseWs rest
    else c :: collapseWs (d :: rest)

/-- Boolean string prefix test (`startsWithL p s` iff `p` is an initial
segment of `s`). -/
def startsWithL : Str → Str → Bool
  | [], _ => true
  | _ :: _, [] => false
  | p :: ps, c :: cs => p == c && startsWithL ps cs

/-- Python's `str.replace(pat, repl)` / `bytes.replace`: replace every
(leftmost, non-overlapping) occurrence of `pat` by `repl`. -/
def replaceSub (pat repl : Str) : Str → Str
  | [] => []
  | c :: rest =>
    if h : pat ≠ [] ∧ startsWithL pat (c :: rest) = true then
      repl ++ replaceSub pat repl ((c :: rest).drop pat.length)
    else c :: replaceSub pat repl rest
termination_by s => s.length
decreasing_by
  · simp only [List.length_drop, List.length_cons]
    have hp : 1 ≤ pat.length := by
      cases hpat : pat with
      | nil => exact absurd hpat h.1
      | cons a t => simp
    omega
  · simp

/-- Python's `str.split(sep)` for a nonempty separator. -/
def splitOnSep (sep : Str) (s : Str) : List Str :=
  if hsep : sep = [] then [s]
  else
    match s with
    | [] => [[]]
    | c :: rest =>
      if startsWithL sep (c :: rest) then
        [] :: splitOnSep sep ((c :: rest).drop sep.length)
      else
        match splitOnSep sep rest with
        | [] => [[c]]
        | seg :: segs => (c :: seg) :: segs
termination_by s.length
decreasing_by
  · simp only [List.length_drop, List.length_cons]
    have hp : 1 ≤ sep.length := by
      cases hpat : sep with
      | nil => exact absurd hpat hsep
      | cons a t => simp
    omega
  · simp

/-- Python's `sep.join(parts)`. -/
def joinSep (sep : Str) : List Str → Str
  | [] => []
  | [s] => s
  | s :: s2 :: rest => s ++ sep ++ joinSep sep (s2 :: rest)

/-- Boolean substring test: does `pat` occur anywhere in `s`? -/
def containsSub (pat : Str) : Str → Bool
  | [] => startsWithL pat []
  | c :: rest => startsWithL pat (c :: rest) || containsSub pat rest

/-! ### SHA-1 (`hashlib.sha1`), over byte lists, machine words as `Nat % 2^32` -/

/-- Rotate a 32-bit word left by `k` bits. -/
def rotl32 (n k : Nat) : Nat :=
  ((n <<< k) % 4294967296) ||| (n >>> (32 - k))

/-- UTF-8 encoding of a single character (`str.encode('utf-8')`). -/
def utf8Char (c : Char) : List Nat :=
  let n := c.toNat
  if n < 128 then [n]
  else if n < 2048 then [192 ||| (n >>> 6), 128 ||| (n &&& 63)]
  else if n < 65536 then
    [224 ||| (n >>> 12), 128 ||| ((n >>> 6) &&& 63), 128 ||| (n &&& 63)]
  else
    [240 ||| (n >>> 18), 128 ||| ((n >>> 12) &&& 63),
     128 ||| ((n >>> 6) &&& 63), 128 ||| (n &&& 63)]

/-- UTF-8 encoding of a string. -/
def utf8Encode (s : Str) : List Nat := (s.map utf8Char).join

/-- Big-endian 8-byte rendering of a natural number (the 64-bit message
length field of SHA-1 padding). -/
def bytes8BE (n : Nat) : List Nat :=
  [(n >>> 56) &&& 255, (n >>> 48) &&& 255, (n >>> 40) &&& 255, (n >>> 32) &&& 255,
   (n >>> 24) &&& 255, (n >>> 16) &&& 255, (n >>> 8) &&& 255, n &&& 255]

/-- SHA-1 message padding: append `0x80`, zero bytes to 56 mod 64, then the
bit length as a 64-bit big-endian integer. -/
def sha1pad (msg : List Nat) : List Nat :=
  let z := (119 - msg.length % 64) % 64
  msg ++ [128] ++ List.replicate z 0 ++ bytes8BE (msg.length * 8)

/-- Group bytes four at a time into big-endian 32-bit words. -/
def bytesToWords : List Nat → List Nat
  | b0 :: b1 :: b2 :: b3 :: rest =>
    ((b0 <<< 24) ||| (b1 <<< 16) ||| (b2 <<< 8) ||| b3) :: bytesToWords rest
  | _ => []

/-- Extend the 16 words of a chunk to 80 words
(`w[i] = rotl1 (w[i-3] xor w[i-8] xor w[i-14] xor w[i-16])`). -/
def extendW : Nat → List Nat → List Nat
  | 0, w => w
  | fuel + 1, w =>
    if 80 ≤ w.length then w
    else
      extendW fuel (w ++ [rotl32 ((w.getD (w.length - 3) 0) ^^^ (w.getD (w.length - 8) 0) ^^^
        (w.getD (w.length - 14) 0) ^^^ (w.getD (w.length - 16) 0)) 1])

/-- The SHA-1 round function for round `i`. -/
def sha1F (i b c d : Nat) : Nat :=
  if i < 20 then (b &&& c) ||| ((b ^^^ 4294967295) &&& d)
  else if i < 40 then b ^^^ c ^^^ d
  else if i < 60 then (b &&& c) ||| (b &&& d) ||| (c &&& d)
  else b ^^^ c ^^^ d

/-- The SHA-1 round constant for round `i`. -/
def sha1K (i : Nat) : Nat :=
  if i < 20 then 1518500249
  else if i < 40 then 1859775393
  else if i < 60 then 2400959708
  else 3395469782

/-- The SHA-1 state: five 32-bit words. -/
abbrev H5 := Nat × Nat × Nat × Nat × Nat

/-- One SHA-1 compression round. -/
def sha1Round (st : H5) (p : Nat × Nat) : H5 :=
  let a := st.1; let b := st.2.1; let c := st.2.2.1
  let d := st.2.2.2.1; let e := st.2.2.2.2
  let temp := (rotl32 a 5 + sha1F p.1 b c d + e + sha1K p.1 + p.2) % 4294967296
  (temp, a, rotl32 b 30, c, d)

/-- Process one 64-byte chunk. -/
def sha1Block (h : H5) (block : List Nat) : H5 :=
  let w := extendW 64 (bytesToWords block)
  let st := w.enum.foldl sha1Round h
  ((h.1 + st.1) % 4294967296, (h.2.1 + st.2.1) % 4294967296,
   (h.2.2.1 + st.2.2.1) % 4294967296, (h.2.2.2.1 + st.2.2.2.1) % 4294967296,
   (h.2.2.2.2 + st.2.2.2.2) % 4294967296)

/-- Split a byte list into 64-byte chunks. -/
def chunks64 : List Nat → List (List Nat)
  | [] => []
  | b :: t => (b :: t).take 64 :: chunks64 ((b :: t).drop 64)
termination_by l => l.length
decreasing_by
  simp only [List.length_drop, List.length_cons]
  omega

/-- The five 32-bit words of the SHA-1 digest of a byte string. -/
def sha1Words (msg : List Nat) : List Nat :=
  let st := (chunks64 (sha1pad msg)).foldl sha1Block
    (1732584193, 4023233417, 2562383102, 271733878, 3285377520)
  [st.1, st.2.1, st.2.2.1, st.2.2.2.1, st.2.2.2.2]

/-- One lowercase hexadecimal digit. -/
def hexDigit (n : Nat) : Char :=
  match n % 16 with
  | 0 => '0' | 1 => '1' | 2 => '2' | 3 => '3' | 4 => '4'
  | 5 => '5' | 6 => '6' | 7 => '7' | 8 => '8' | 9 => '9'
  | 10 => 'a' | 11 => 'b' | 12 => 'c' | 13 => 'd' | 14 => 'e'
  | _ => 'f'

/-- Eight lowercase hex digits of a 32-bit word, most significant first. -/
def wordToHex (w : Nat) : Str :=
  [hexDigit (w >>> 28), hexDigit (w >>> 24), hexDigit (w >>> 20), hexDigit (w >>> 16),
   hexDigit (w >>> 12), hexDigit (w >>> 8), hexDigit (w >>> 4), hexDigit w]

/-- The value of `hashlib.sha1(msg).hexdigest()`. -/
def sha1hex (msg : List Nat) : Str := ((sha1Words msg).map wordToHex).join

/-! ### Message identity (`scan_folder` / `scan_file` header handling) -/

/-- The constant `UUID` used to mark synthesized Message-Ids. -/
def UUID : Str := "19AF1258-1AAF-44EF-9D9A-731079D6FAD7".toList

/-- The match `MSGID_RE.match(header).group(1)` with
`MSGID_RE = re.compile("^Message\-Id\: (.+)", re.IGNORECASE + re.MULTILINE)`:
if `header` starts (case-insensitively) with `Message-Id: `, the rest of that
line (which must be nonempty); otherwise the match fails. -/
def msgidMatch (header : Str) : Option Str :=
  if startsWithL "message-id: ".toList (header.map Char.toLower) then
    let rest := (header.drop 12).takeWhile (fun c => c != '\n')
    if rest = [] then none else some rest
  else none

/-- The synthesized identifier built in `scan_folder`'s fallback path:
strip the fetched From/To/Cc/Date/Subject header block, normalize `\r\n` to a
tab, UTF-8-encode, and wrap the UUID-namespaced SHA-1 hex digest in angle
brackets. -/
def synthId (hdr_fetch : Str) : Str :=
  let header := replaceSub ['\r', '\n'] ['\t'] (pyStrip hdr_fetch)
  '<' :: (UUID ++ '.' :: (sha1hex (utf8Encode header) ++ ['>']))

/-- The identifier `scan_folder` derives for one message, given the decoded
results of the Message-Id header fetch and of the fallback header fetch. -/
def messageIdentity (mid_fetch hdr_fetch : Str) : Str :=
  match msgidMatch (collapseWs (pyStrip mid_fetch)) with
  | some mid => mid
  | none => synthId hdr_fetch

/-! ### The per-folder remote index (`scan_folder`) -/

/-- The remote (or new-message) index: an insertion-ordered association of
message identifiers to per-folder sequence numbers, modelling a Python
`dict`. -/
abbrev AList := List (Str × Nat)

/-- Key membership in the association list (`k in d.keys()`). -/
def containsKey (l : AList) (k : Str) : Bool := l.any (fun p => p.1 == k)

/-- Python dictionary assignment `d[k] = v`: an existing key keeps its
insertion position and gets the new value; a new key is appended. -/
def dictSet : AList → Str → Nat → AList
  | [], k, v => [(k, v)]
  | (k', v') :: t, k, v =>
    if k' = k then (k', v) :: t else (k', v') :: dictSet t k v

/-- A remote message as `scan_folder` sees it: its `\Seen` flag, the decoded
result of the `BODY.PEEK[HEADER.FIELDS (MESSAGE-ID)]` fetch, and the decoded
result of the fallback `BODY[HEADER.FIELDS (FROM TO CC DATE SUBJECT)]`
fetch. -/
structure Msg where
  seen : Bool
  mid_fetch : Str
  hdr_fetch : Str
deriving DecidableEq

/-- The numbers returned by `server.search(None, 'UNSEEN')`: the 1-based
sequence numbers of the messages not flagged `\Seen`, ascending. -/
def searchUnseenFrom (n : Nat) : List Msg → List Nat
  | [] => []
  | m :: rest =>
    if m.seen then searchUnseenFrom (n + 1) rest
    else n :: searchUnseenFrom (n + 1) rest

/-- UNSEEN search over a whole mailbox (numbers start at 1). -/
def searchUnseen (mb : List Msg) : List Nat := searchUnseenFrom 1 mb

/-- The body of `scan_folder`'s per-message loop: collapse whitespace in the
stripped Message-Id fetch result, and either record the genuine identifier
(first occurrence only) or store the synthesized identifier (unconditional
dictionary assignment). -/
def scanMsg (messages : AList) (num : Nat) (m : Msg) : AList :=
  let header := collapseWs (pyStrip m.mid_fetch)
  match msgidMatch header with
  | some mid =>
    if containsKey messages mid then messages else messages ++ [(mid, num)]
  | none => dictSet messages (synthId m.hdr_fetch) num

/-- `scan_folder`: select the folder, search UNSEEN, and build the
identifier-to-sequence-number index over the returned message numbers. -/
def scanFolder (mb : List Msg) : AList :=
  (searchUnseen mb).foldl
    (fun acc n =>
      match mb[n - 1]? with
      | some m => scanMsg acc n m
      | none => acc) []

/-! ### The local index (`scan_file`) -/

/-- A message of the on-disk mbox archive, reduced to what `scan_file`
inspects: the result of `message.get('Message-Id')`, which is the header
value when the header exists and `None` otherwise. -/
structure MboxMsg where
  msgid : Option Str
deriving DecidableEq

/-- `scan_file`: list the identifiers present in the archive.  Returns `[]`
when the file is to be overwritten.  For each message the code formats
`"Message-Id: {value}"` (Python renders a missing header as the string
`None`), collapses whitespace, and records the regex-matched identifier,
skipping duplicates; a failed match only warns. -/
def scanFile (archive : List MboxMsg) (overwrite : Bool) : List Str :=
  if overwrite then []
  else
    archive.foldl
      (fun acc m =>
        let header := "Message-Id: ".toList ++
          (match m.msgid with
           | some v => v
           | none => "None".toList)
        let header := collapseWs (pyStrip header)
        match msgidMatch header with
        | some mid => if acc.contains mid then acc else acc ++ [mid]
        | none => acc) []

/-! ### Reconciliation (`main`'s new-message loop) -/

/-- First value stored under key `k` (`fol_messages[msg_id]`). -/
def lookup1 (l : AList) (k : Str) : Nat :=
  match l.find? (fun p => p.1 == k) with
  | some p => p.2
  | none => 0

/-- The reconciliation loop of `main`: for each identifier of the remote
index in order, copy its entry to the new dictionary unless the identifier
is present in the local index. -/
def reconcile (fol : AList) (fil : List Str) : AList :=
  (fol.map Prod.fst).foldl
    (fun acc k => if fil.contains k then acc else dictSet acc k (lookup1 fol k)) []

/-! ### LIST-response parsing (`parse_paren_list`, `parse_string_list`,
`parse_list`, `get_names`).  A Python `assert` failure or `IndexError` is an
uncaught exception; it is modelled as `none`, and propagates. -/

/-- A parsed IMAP folder attribute: a backslash-prefixed atom or a nested
parenthesized list. -/
inductive Attrib where
  | atom (s : Str)
  | alist (l : List Attrib)

/-- The anchored search for `^\s*(\\[a-zA-Z0-9_]+)\s*` in `parse_paren_list`:
on success, the stripped matched attribute and the remainder of the row. -/
def matchNameAttrib (row : Str) : Option (Str × Str) :=
  match row.dropWhile isSpaceChar with
  | '\\' :: r2 =>
    let w := r2.takeWhile (fun c => c.isAlphanum || c == '_')
    if w = [] then none
    else some ('\\' :: w, (r2.drop w.length).dropWhile isSpaceChar)
  | _ => none

/-- The body of `parse_paren_list` after the opening parenthesis: consume
attributes (recursing on nested lists) until the closing parenthesis.  The
fuel argument bounds the recursion; with fuel `row.length + 1` it never runs
out before the row does. -/
def attrsLoop : Nat → Str → Option (List Attrib × Str)
  | 0, _ => none
  | _ + 1, [] => none
  | fuel + 1, c :: rest =>
    if c = ')' then some ([], rest)
    else if c = '(' then
      match attrsLoop fuel rest with
      | some (inner, row2) =>
        match attrsLoop fuel row2 with
        | some (res, row3) => some (Attrib.alist inner :: res, row3)
        | none => none
      | none => none
    else
      match matchNameAttrib (c :: rest) with
      | some (a, row2) =>
        match attrsLoop fuel row2 with
        | some (res, row3) => some (Attrib.atom a :: res, row3)
        | none => none
      | none => none

/-- `parse_paren_list`: assert the row starts with `(`, then parse the
attribute list, returning it with the remainder of the row. -/
def parseParenList (row : Str) : Option (List Attrib × Str) :=
  match row with
  | '(' :: rest => attrsLoop (rest.length + 1) rest
  | _ => none

/-- The loop of `parse_string_list`'s tokenizer, structurally recursive on a
fuel bound (every step consumes at least one character, so fuel
`row.length + 1` never runs out). -/
def tokenizeF : Nat → Str → List Str
  | 0, _ => []
  | _ + 1, [] => []
  | fuel + 1, c :: rest =>
    if isSpaceChar c then tokenizeF fuel rest
    else if c = '"' ∧ (rest.takeWhile (fun x => x != '"')).length < rest.length ∧
        rest.takeWhile (fun x => x != '"') ≠ [] then
      -- a quoted token with a nonempty body and a closing quote
      rest.takeWhile (fun x => x != '"') ::
        tokenizeF fuel (rest.drop ((rest.takeWhile (fun x => x != '"')).length + 1))
    else
      (c :: rest.takeWhile (fun x => !isSpaceChar x)) ::
        tokenizeF fuel (rest.dropWhile (fun x => !isSpaceChar x))

/-- `parse_string_list`: tokenize the remainder of a LIST row into quoted
strings (`"([^"]+)"`, quotes removed) and bare whitespace-delimited
tokens, as the `re.split`-and-filter in the source produces them. -/
def tokenize (row : Str) : List Str := tokenizeF (row.length + 1) row

/-- `parse_list`: strip the row, parse the parenthesized attribute list, and
assert that exactly two tokens (delimiter and name) remain. -/
def parseList (row : Str) : Option (List Attrib × Str × Str) :=
  match parseParenList (pyStrip row) with
  | none => none
  | some (attrs, rest) =>
    match tokenize rest with
    | [d, n] => some (attrs, d, n)
    | _ => none

/-! ### Folder-name mapping and `get_names` -/

/-- The filename computed by `get_names` for one folder: in Thunderbird mode
join the delimiter-split segments with `.sbd/` and, when the result starts
with `INBOX`, apply `str.replace("INBOX", "Inbox")`; otherwise join with `.`
and append `.mbox`. -/
def folderFilename (thunderbird : Bool) (delim foldername : Str) : Str :=
  if thunderbird then
    let f := joinSep ".sbd/".toList (splitOnSep delim foldername)
    if startsWithL "INBOX".toList f then
      replaceSub "INBOX".toList "Inbox".toList f
    else f
  else joinSep ".".toList (splitOnSep delim foldername) ++ ".mbox".toList

/-- `get_names`: parse every row of the LIST response and map each folder
name to its archive filename.  A row that fails to parse raises an uncaught
exception, so the whole call (and with it the run) fails: `none`. -/
def getNames (thunderbird : Bool) : List Str → Option (List (Str × Str))
  | [] => some []
  | row :: rest =>
    match parseList row with
    | none => none
    | some (_, d, n) =>
      match getNames thunderbird rest with
      | none => none
      | some xs => some ((n, folderFilename thunderbird d n) :: xs)

/-! ### Mbox body serialization (`download_messages`) -/

/-- The literal `From ` token of the mbox envelope quoting rules. -/
def fromTok : Str := "From ".toList

/-- The substitution `re.compile(b"\n(>*)From ").sub(b"\n>\\1From ", text)`:
after every newline, a run of `>` immediately followed by `From ` gains one
more leading `>`. -/
def fromQuote : Str → Str
  | [] => []
  | c :: rest =>
    if c = '\n' then
      if startsWithL fromTok (rest.drop (rest.takeWhile (fun x => x == '>')).length) then
        '\n' :: '>' ::
          (List.replicate (rest.takeWhile (fun x => x == '>')).length '>' ++ fromTok ++
            fromQuote ((rest.drop (rest.takeWhile (fun x => x == '>')).length).drop 5))
      else '\n' :: fromQuote rest
    else c :: fromQuote rest
termination_by s => s.length
decreasing_by
  · simp only [List.length_drop, List.length_cons]
    have := takeWhile_len_le (fun x => x == '>') rest
    omega
  · simp
  · simp

/-- The body-normalization-and-quoting pipeline of `download_messages`:
strip, remove carriage returns, then either the Thunderbird rewrite
`replace(b"\nFrom ", b"\n From ")` or the `>From ` quoting. -/
def serializeBody (thunderbird : Bool) (data : Str) : Str :=
  let text := replaceSub ['\r'] [] (pyStrip data)
  if thunderbird then replaceSub ('\n' :: fromTok) ('\n' :: ' ' :: fromTok) text
  else fromQuote text

/-! ### Relay dispatch (`resend_messages`) -/

/-- Observable actions of `resend_messages`, in order: a successful relay
delivery, a `+FLAGS \Seen` store, a `-FLAGS \Seen` store, and a
`time.sleep` pause of the given number of seconds. -/
inductive RelayEvent where
  | delivered (n : Nat)
  | setSeen (n : Nat)
  | setUnseen (n : Nat)
  | pause (secs : Nat)
deriving DecidableEq

/-- The loop of `resend_messages` from a given message counter: each message
either delivers (then `+FLAGS \Seen`) or fails (then `-FLAGS \Seen`), the
counter increments, and after every 30th processed message the loop sleeps
60 seconds. -/
def resendGo : Nat → List Bool → List RelayEvent
  | _, [] => []
  | cnt, ok :: rest =>
    (if ok then [RelayEvent.delivered (cnt + 1), RelayEvent.setSeen (cnt + 1)]
     else [RelayEvent.setUnseen (cnt + 1)]) ++
    (if (cnt + 1) % 30 = 0 then [RelayEvent.pause 60] else []) ++
    resendGo (cnt + 1) rest

/-- `resend_messages`, abstracted over the per-message delivery outcomes of
the batch (message numbers are 1-based batch positions). -/
def resendMessages (outcomes : List Bool) : List RelayEvent :=
  resendGo 0 outcomes

/-! ### The per-folder pipeline of `main` -/

/-- The sink invocation at the end of `main`'s per-folder loop. -/
inductive SinkCall where
  | download (filename : Str) (msgs : AList)
  | resend (mailserver mailuser : Str) (msgs : AList)

/-- Whether a sink call is the mbox download/serialization sink. -/
def SinkCall.isDownload : SinkCall → Bool
  | SinkCall.download _ _ => true
  | SinkCall.resend _ _ _ => false

/-- The body of `main`'s per-folder loop: scan the remote folder, scan the
archive file, reconcile, and hand the result to `resend_messages` with the
hardcoded relay host and recipient (the `download_messages` call is
commented out). -/
def processFolder (mb : List Msg) (archive : List MboxMsg) (overwrite : Bool) : SinkCall :=
  SinkCall.resend "mx1.besserwisser.org".toList "haba@besserwisser.org".toList
    (reconcile (scanFolder mb) (scanFile archive overwrite))

/-- The per-folder loop of `main` over the work plan. -/
def mainLoop (folders : List (List Msg × List MboxMsg)) (overwrite : Bool) : List SinkCall :=
  folders.map (fun p => processFolder p.1 p.2 overwrite)

/-! ## Claim C10: the per-folder loop always dispatches to the relay sink -/

/-- C10.  In the per-folder loop of `main`, every folder's reconciled
new-message set is handed to `resend_messages` with the hardcoded relay host
`mx1.besserwisser.org` and recipient `haba@besserwisser.org`; the mbox
download sink is never invoked. -/
theorem c10_relay_sink_hardcoded (folders : List (List Msg × List MboxMsg))
    (overwrite : Bool) :
    (∀ sink ∈ mainLoop folders overwrite, sink.isDownload = false) ∧
    (∀ mb archive, processFolder mb archive overwrite =
      SinkCall.resend "mx1.besserwisser.org".toList "haba@besserwisser.org".toList
        (reconcile (scanFolder mb) (scanFile archive overwrite))) := by
  constructor
  · intro sink hs
    simp only [mainLoop, List.mem_map] at hs
    obtain ⟨p, _, rfl⟩ := hs
    rfl
  · intro mb archive
    rfl

/-! ## Claim C6: `scan_file` on entries with a missing or malformed
Message-Id header -/

/-- C6 (code bug witness).  A message with no `Message-Id` header does NOT
stay out of the local index: `message.get` returns `None`, Python formats it
as the string `None`, the regex matches it, and the literal identifier
`None` is recorded — with no warning.  An empty (malformed) header value, in
contrast, fails the regex and contributes nothing.  The dead
`except KeyError` branch of the source (commented "No message ID was found.
Warn the user and move on") shows the intended behaviour the claim
describes. -/
theorem c6_missing_msgid_contributes_None :
    scanFile [⟨none⟩] false = ["None".toList] ∧
    scanFile [⟨some []⟩] false = [] ∧
    scanFile [⟨some "<a@x>".toList⟩, ⟨none⟩] false = ["<a@x>".toList, "None".toList] := by
  refine ⟨?_, ?_, ?_⟩ <;> rfl

/-! ## Claim C1: reconciliation is filtering the remote index by absence
from the local index -/

theorem lookup1_cons_self (k : Str) (v : Nat) (t : AList) :
    lookup1 ((k, v) :: t) k = v := by
  simp [lookup1, List.find?]

theorem lookup1_cons_ne {k k' : Str} (v : Nat) (t : AList) (h : k' ≠ k) :
    lookup1 ((k, v) :: t) k' = lookup1 t k' := by
  have : (k == k') = false := by
    exact beq_false_of_ne (fun hkk => h hkk.symm)
  simp [lookup1, List.find?, this]

theorem containsKey_append (a b : AList) (k : Str) :
    containsKey (a ++ b) k = (containsKey a k || containsKey b k) := by
  simp [containsKey]

theorem dictSet_of_not_containsKey (acc : AList) (k : Str) (v : Nat)
    (h : containsKey acc k = false) : dictSet acc k v = acc ++ [(k, v)] := by
  induction acc with
  | nil => rfl
  | cons p t ih =>
    simp only [containsKey, List.any_cons, Bool.or_eq_false_iff] at h
    obtain ⟨h1, h2⟩ := h
    have hne : p.1 ≠ k := by
      intro he
      rw [he] at h1
      simp at h1
    cases p with
    | mk k' v' =>
      simp only [dictSet, if_neg hne, List.cons_append, List.cons.injEq, true_and]
      exact ih h2

theorem reconcile_step_congr (fil : List Str) (f g : AList) :
    ∀ (ks : List Str), (∀ k ∈ ks, lookup1 f k = lookup1 g k) → ∀ acc,
    ks.foldl (fun acc k => if fil.contains k then acc else dictSet acc k (lookup1 f k)) acc =
    ks.foldl (fun acc k => if fil.contains k then acc else dictSet acc k (lookup1 g k)) acc := by
  intro ks
  induction ks with
  | nil => intro _ acc; rfl
  | cons k ks ih =>
    intro h acc
    simp only [List.foldl_cons]
    rw [h k (List.mem_cons_self k ks)]
    exact ih (fun k' hk' => h k' (List.mem_cons_of_mem k hk')) _

theorem reconcile_aux (fil : List Str) :
    ∀ (t : AList) (acc : AList), (t.map Prod.fst).Nodup →
    (∀ k ∈ t.map Prod.fst, containsKey acc k = false) →
    (t.map Prod.fst).foldl
      (fun acc k => if fil.contains k then acc else dictSet acc k (lookup1 t k)) acc =
    acc ++ t.filter (fun p => !(fil.contains p.1)) := by
  intro t
  induction t with
  | nil => intro acc _ _; simp
  | cons p t ih =>
    intro acc hnd hdisj
    cases p with
    | mk k v =>
      simp only [List.map_cons, List.nodup_cons, List.mem_map] at hnd
      obtain ⟨hk_not, hnd'⟩ := hnd
      have hk_keys : k ∉ t.map Prod.fst := by
        intro hmem
        simp only [List.mem_map] at hmem
        exact hk_not hmem
      have hswap : ∀ k' ∈ t.map Prod.fst, lookup1 ((k, v) :: t) k' = lookup1 t k' := by
        intro k' hk'
        have : k' ≠ k := fun he => hk_keys (he ▸ hk')
        exact lookup1_cons_ne v t this
      simp only [List.map_cons, List.foldl_cons]
      rw [lookup1_cons_self]
      by_cases hc : fil.contains k = true
      · rw [if_pos hc,
          reconcile_step_congr fil ((k, v) :: t) t (t.map Prod.fst) hswap acc,
          ih acc hnd' (fun k' hk' => hdisj k' (List.mem_cons_of_mem _ hk'))]
        have hmem : k ∈ fil := by simpa using hc
        simp [List.filter_cons, hc, hmem]
      · have hc' : fil.contains k = false := by
          cases hfc : fil.contains k
          · rfl
          · exact absurd hfc hc
        rw [if_neg hc,
          dictSet_of_not_containsKey acc k v (hdisj k (by simp)),
          reconcile_step_congr fil ((k, v) :: t) t (t.map Prod.fst) hswap _,
          ih (acc ++ [(k, v)]) hnd' ?_]
        · have hmem : k ∉ fil := by simpa using hc'
          simp [List.filter_cons, hc', hmem]
        · intro k' hk'
          rw [containsKey_append, hdisj k' (List.mem_cons_of_mem _ hk')]
          have : k' ≠ k := fun he => hk_keys (he ▸ hk')
          simp [containsKey, beq_false_of_ne (fun hkk => this hkk.symm)]

/-- C1.  When the remote index has no duplicate identifiers (as `scan_folder`
guarantees), the reconciliation loop of `main` produces exactly the remote
index filtered to the identifiers absent from the local index: each kept
entry retains its remote sequence number, an entry is included iff its
identifier is not in the local index, and the result preserves the remote
index's insertion order. -/
theorem c1_reconcile_is_filter (fol : AList) (fil : List Str)
    (hnd : (fol.map Prod.fst).Nodup) :
    reconcile fol fil = fol.filter (fun p => !(fil.contains p.1)) ∧
    (∀ id num, (id, num) ∈ reconcile fol fil ↔
      ((id, num) ∈ fol ∧ fil.contains id = false)) := by
  have heq : reconcile fol fil = fol.filter (fun p => !(fil.contains p.1)) := by
    have := reconcile_aux fil fol [] hnd (fun k _ => rfl)
    simpa [reconcile] using this
  refine ⟨heq, ?_⟩
  intro id num
  rw [heq, List.mem_filter]
  simp

/-- C1 witness: a concrete reconciliation. -/
theorem c1_reconcile_witness :
    reconcile [("<a@x>".toList, 3), ("<b@y>".toList, 1)] ["<a@x>".toList] =
      [("<b@y>".toList, 1)] := by
  rw [(c1_reconcile_is_filter [("<a@x>".toList, 3), ("<b@y>".toList, 1)]
    ["<a@x>".toList] (by decide)).1]
  rfl

/-! ## Claim C2: de-duplication within one folder scan -/

theorem scanFolder_pair (m1 m2 : Msg) (h1 : m1.seen = false) (h2 : m2.seen = false) :
    scanFolder [m1, m2] = scanMsg (scanMsg [] 1 m1) 2 m2 := by
  simp [scanFolder, searchUnseen, searchUnseenFrom, h1, h2]

theorem scanMsg_synth (messages : AList) (num : Nat) (m : Msg)
    (hm : msgidMatch (collapseWs (pyStrip m.mid_fetch)) = none) :
    scanMsg messages num m = dictSet messages (synthId m.hdr_fetch) num := by
  simp [scanMsg, hm]

theorem scanMsg_genuine (messages : AList) (num : Nat) (m : Msg) (i : Str)
    (hm : msgidMatch (collapseWs (pyStrip m.mid_fetch)) = some i) :
    scanMsg messages num m =
      if containsKey messages i then messages else messages ++ [(i, num)] := by
  simp [scanMsg, hm]

/-- C2 (amended).  Within one folder scan, a duplicated genuine Message-Id
keeps the earliest-seen sequence number, but a duplicated synthesized
identifier is overwritten by each later occurrence (the insertion position
stays first-seen, the stored number becomes the latest-seen): the source
only guards the genuine path with `if msg_id not in messages.keys()`. -/
theorem c2_first_seen_only_for_genuine (m1 m2 : Msg) (i1 i2 : Str)
    (h1 : m1.seen = false) (h2 : m2.seen = false) :
    (msgidMatch (collapseWs (pyStrip m1.mid_fetch)) = none →
     msgidMatch (collapseWs (pyStrip m2.mid_fetch)) = none →
     synthId m1.hdr_fetch = synthId m2.hdr_fetch →
     scanFolder [m1, m2] = [(synthId m1.hdr_fetch, 2)]) ∧
    (msgidMatch (collapseWs (pyStrip m1.mid_fetch)) = some i1 →
     msgidMatch (collapseWs (pyStrip m2.mid_fetch)) = some i2 →
     i1 = i2 →
     scanFolder [m1, m2] = [(i1, 1)]) := by
  constructor
  · intro hm1 hm2 heq
    rw [scanFolder_pair m1 m2 h1 h2, scanMsg_synth _ _ _ hm1, scanMsg_synth _ _ _ hm2]
    simp only [dictSet]
    rw [if_pos heq]
  · intro hm1 hm2 heq
    rw [scanFolder_pair m1 m2 h1 h2, scanMsg_genuine _ _ _ _ hm1,
      scanMsg_genuine _ _ _ _ hm2]
    have hck : containsKey ([] ++ [(i1, 1)]) i2 = true := by
      simp [containsKey, heq]
    simp [containsKey] at hck ⊢
    simp [hck, heq]

/-- C2 counterexample: two unseen messages with no Message-Id and identical
fallback headers synthesize the same identifier, and the remote index
retains sequence number 2 — the latest-seen occurrence, not the
earliest-seen one the claim requires. -/
theorem c2_synth_dup_keeps_latest :
    (scanFolder [⟨false, [], "X".toList⟩, ⟨false, [], "X".toList⟩]).map Prod.snd = [2] ∧
    ([2] : List Nat) ≠ [1] := by
  constructor
  · rw [scanFolder_pair _ _ rfl rfl,
      scanMsg_synth [] 1 ⟨false, [], "X".toList⟩ rfl,
      scanMsg_synth _ 2 ⟨false, [], "X".toList⟩ rfl]
    simp [dictSet]
  · decide

/-- C2 witness: the amended de-duplication behaviour at concrete inputs
(one synthesized-identifier duplicate pair, one genuine-Message-Id duplicate
pair). -/
theorem c2_dedup_witness :
    scanFolder [⟨false, [], "X".toList⟩, ⟨false, [], "X".toList⟩] =
      [(synthId "X".toList, 2)] ∧
    scanFolder [⟨false, "Message-Id: <a@x>".toList, []⟩,
                ⟨false, "Message-Id: <a@x>".toList, []⟩] =
      [("<a@x>".toList, 1)] :=
  ⟨(c2_first_seen_only_for_genuine ⟨false, [], "X".toList⟩ ⟨false, [], "X".toList⟩
      [] [] rfl rfl).1 rfl rfl rfl,
   (c2_first_seen_only_for_genuine ⟨false, "Message-Id: <a@x>".toList, []⟩
      ⟨false, "Message-Id: <a@x>".toList, []⟩
      "<a@x>".toList "<a@x>".toList rfl rfl).2 rfl rfl rfl⟩

/-! ## Claim C3: message-identity extraction is deterministic -/

theorem hexDigit_mem (n : Nat) : hexDigit n ∈ "0123456789abcdef".toList := by
  unfold hexDigit
  have h : n % 16 < 16 := Nat.mod_lt _ (by norm_num)
  generalize n % 16 = m at h ⊢
  interval_cases m <;> decide

theorem wordToHex_mem {c : Char} {w : Nat} (h : c ∈ wordToHex w) :
    c ∈ "0123456789abcdef".toList := by
  simp only [wordToHex, List.mem_cons, List.not_mem_nil, or_false] at h
  rcases h with h | h | h | h | h | h | h | h <;> (subst h; exact hexDigit_mem _)

theorem sha1hex_len (msg : List Nat) : (sha1hex msg).length = 40 := by
  simp [sha1hex, sha1Words, wordToHex]

theorem sha1hex_mem (msg : List Nat) :
    ∀ c ∈ sha1hex msg, c ∈ "0123456789abcdef".toList := by
  intro c hc
  simp only [sha1hex, List.mem_join, List.mem_map] at hc
  obtain ⟨l, ⟨w, _, rfl⟩, hcl⟩ := hc
  exact wordToHex_mem hcl

/-- C3.  Identity extraction is a pure function of the fetched header bytes:
byte-identical Message-Id fetch results and fallback header blocks yield the
identical identifier on any two scans.  When no usable Message-Id is present
the identifier has the form `<UUID.hex>` where `hex` is the 40-lowercase-hex
SHA-1 digest of the fallback headers with `\r\n` normalized to a tab; when a
Message-Id matches, the whitespace-collapsed match itself is returned. -/
theorem c3_identity_deterministic (m1 m2 h1 h2 : Str) (hm : m1 = m2) (hh : h1 = h2) :
    messageIdentity m1 h1 = messageIdentity m2 h2 ∧
    (msgidMatch (collapseWs (pyStrip m1)) = none →
      ∃ hex : Str, hex.length = 40 ∧ (∀ c ∈ hex, c ∈ "0123456789abcdef".toList) ∧
        messageIdentity m1 h1 = '<' :: (UUID ++ '.' :: (hex ++ ['>'])) ∧
        hex = sha1hex (utf8Encode (replaceSub ['\r', '\n'] ['\t'] (pyStrip h1)))) ∧
    (∀ i, msgidMatch (collapseWs (pyStrip m1)) = some i →
      messageIdentity m1 h1 = i) := by
  subst hm hh
  refine ⟨rfl, ?_, ?_⟩
  · intro hnone
    refine ⟨sha1hex _, sha1hex_len _, sha1hex_mem _, ?_, rfl⟩
    simp [messageIdentity, hnone, synthId]
  · intro i hi
    simp [messageIdentity, hi]

/-- C3 witness: the determinism theorem applied at one concrete
Message-Id-less header block and one concrete genuine Message-Id fetch. -/
theorem c3_identity_witness :
    messageIdentity [] "X".toList = messageIdentity [] "X".toList ∧
    (∃ hex : Str, hex.length = 40 ∧ (∀ c ∈ hex, c ∈ "0123456789abcdef".toList) ∧
      messageIdentity [] "X".toList = '<' :: (UUID ++ '.' :: (hex ++ ['>'])) ∧
      hex = sha1hex (utf8Encode (replaceSub ['\r', '\n'] ['\t'] (pyStrip "X".toList)))) ∧
    messageIdentity "Message-Id: <a@x>".toList [] = "<a@x>".toList :=
  ⟨(c3_identity_deterministic [] [] "X".toList "X".toList rfl rfl).1,
   (c3_identity_deterministic [] [] "X".toList "X".toList rfl rfl).2.1 rfl,
   (c3_identity_deterministic "Message-Id: <a@x>".toList "Message-Id: <a@x>".toList
     [] [] rfl rfl).2.2 "<a@x>".toList rfl⟩

/-! ## Claim C9: the remote index holds only UNSEEN-search results -/

theorem mem_searchUnseenFrom :
    ∀ (l : List Msg) (n num : Nat), num ∈ searchUnseenFrom n l →
    n ≤ num ∧ ∃ m, l[num - n]? = some m ∧ m.seen = false := by
  intro l
  induction l with
  | nil => intro n num h; simp [searchUnseenFrom] at h
  | cons m l ih =>
    intro n num h
    simp only [searchUnseenFrom] at h
    by_cases hs : m.seen = true
    · rw [if_pos hs] at h
      obtain ⟨hle, m', hget, hseen⟩ := ih (n + 1) num h
      refine ⟨by omega, m', ?_, hseen⟩
      have : num - n = (num - (n + 1)) + 1 := by omega
      rw [this, List.getElem?_cons_succ]
      exact hget
    · have hs' : m.seen = false := by
        cases hv : m.seen
        · rfl
        · exact absurd hv hs
      rw [if_neg hs] at h
      rcases List.mem_cons.mp h with rfl | h
      · exact ⟨le_refl _, m, by simp, hs'⟩
      · obtain ⟨hle, m', hget, hseen⟩ := ih (n + 1) num h
        refine ⟨by omega, m', ?_, hseen⟩
        have : num - n = (num - (n + 1)) + 1 := by omega
        rw [this, List.getElem?_cons_succ]
        exact hget

theorem dictSet_mem {p : Str × Nat} :
    ∀ (l : AList) (k : Str) (v : Nat), p ∈ dictSet l k v → p ∈ l ∨ p = (k, v) := by
  intro l
  induction l with
  | nil => intro k v h; simp [dictSet] at h; right; exact h
  | cons q t ih =>
    intro k v h
    cases q with
    | mk k' v' =>
      simp only [dictSet] at h
      by_cases he : k' = k
      · rw [if_pos he] at h
        rcases List.mem_cons.mp h with rfl | h
        · right; rw [he]
        · left; exact List.mem_cons_of_mem _ h
      · rw [if_neg he] at h
        rcases List.mem_cons.mp h with rfl | h
        · left; exact List.mem_cons_self _ _
        · rcases ih k v h with h | h
          · left; exact List.mem_cons_of_mem _ h
          · right; exact h

theorem scanMsg_mem {p : Str × Nat} (acc : AList) (num : Nat) (m : Msg)
    (h : p ∈ scanMsg acc num m) : p ∈ acc ∨ p.2 = num := by
  cases hm : msgidMatch (collapseWs (pyStrip m.mid_fetch)) with
  | some i =>
    rw [scanMsg_genuine acc num m i hm] at h
    by_cases hc : containsKey acc i = true
    · rw [if_pos hc] at h; left; exact h
    · rw [if_neg hc] at h
      rcases List.mem_append.mp h with h | h
      · left; exact h
      · right
        simp only [List.mem_singleton] at h
        rw [h]
  | none =>
    rw [scanMsg_synth acc num m hm] at h
    rcases dictSet_mem acc _ num h with h | h
    · left; exact h
    · right; rw [h]

theorem scanFolder_fold_mem {mb : List Msg} {p : Str × Nat} :
    ∀ (nums : List Nat) (acc : AList),
    p ∈ nums.foldl
      (fun acc n => match mb[n - 1]? with | some m => scanMsg acc n m | none => acc) acc →
    p ∈ acc ∨ ∃ n ∈ nums, p.2 = n := by
  intro nums
  induction nums with
  | nil => intro acc h; left; exact h
  | cons n nums ih =>
    intro acc h
    simp only [List.foldl_cons] at h
    rcases ih _ h with h | ⟨n', hn', he⟩
    · cases hg : mb[n - 1]? with
      | some m =>
        rw [hg] at h
        rcases scanMsg_mem acc n m h with h | h
        · left; exact h
        · right; exact ⟨n, by simp, h⟩
      | none => rw [hg] at h; left; exact h
    · right; exact ⟨n', List.mem_cons_of_mem _ hn', he⟩

theorem lookup1_mem_of_key {fol : AList} {k : Str} (h : k ∈ fol.map Prod.fst) :
    (k, lookup1 fol k) ∈ fol := by
  induction fol with
  | nil => simp at h
  | cons q t ih =>
    cases q with
    | mk k' v' =>
      by_cases he : k' = k
      · subst he
        rw [lookup1_cons_self]
        exact List.mem_cons_self _ _
      · have hk : k ∈ t.map Prod.fst := by
          simp only [List.map_cons, List.mem_cons] at h
          rcases h with h | h
          · exact absurd h.symm he
          · exact h
        rw [lookup1_cons_ne _ _ (fun hx => he hx.symm)]
        exact List.mem_cons_of_mem _ (ih hk)

theorem reconcile_mem {fol : AList} {fil : List Str} {p : Str × Nat}
    (h : p ∈ reconcile fol fil) : p ∈ fol := by
  unfold reconcile at h
  have hfold : ∀ (ks : List Str) (acc : AList),
      p ∈ ks.foldl
        (fun acc k => if fil.contains k then acc else dictSet acc k (lookup1 fol k)) acc →
      p ∈ acc ∨ ∃ k ∈ ks, p = (k, lookup1 fol k) := by
    intro ks
    induction ks with
    | nil => intro acc h; left; exact h
    | cons k ks ih =>
      intro acc h
      simp only [List.foldl_cons] at h
      rcases ih _ h with h | ⟨k', hk', he⟩
      · by_cases hc : fil.contains k = true
        · rw [if_pos hc] at h; left; exact h
        · rw [if_neg hc] at h
          rcases dictSet_mem acc _ _ h with h | h
          · left; exact h
          · right; exact ⟨k, by simp, h⟩
      · right; exact ⟨k', List.mem_cons_of_mem _ hk', he⟩
  rcases hfold _ _ h with h | ⟨k, hk, he⟩
  · simp at h
  · rw [he]
    exact lookup1_mem_of_key hk

/-- C9.  Every entry of the remote index built by `scan_folder` — and hence
every entry of the reconciled new-message set — carries a sequence number
returned by the server's UNSEEN search, whose message is not flagged
`\Seen`: a message already flagged `\Seen` never enters the remote index,
even when its identifier is absent from the local archive. -/
theorem c9_remote_index_only_unseen (mb : List Msg) (fil : List Str)
    (id : Str) (num : Nat) :
    ((id, num) ∈ scanFolder mb →
      num ∈ searchUnseen mb ∧ ∃ m, mb[num - 1]? = some m ∧ m.seen = false) ∧
    ((id, num) ∈ reconcile (scanFolder mb) fil →
      num ∈ searchUnseen mb ∧ ∃ m, mb[num - 1]? = some m ∧ m.seen = false) := by
  have hfol : (id, num) ∈ scanFolder mb →
      num ∈ searchUnseen mb ∧ ∃ m, mb[num - 1]? = some m ∧ m.seen = false := by
    intro h
    unfold scanFolder at h
    rcases scanFolder_fold_mem _ _ h with h | ⟨n, hn, he⟩
    · simp at h
    · simp only at he
      subst he
      refine ⟨hn, ?_⟩
      obtain ⟨_, m, hget, hseen⟩ := mem_searchUnseenFrom mb 1 num hn
      exact ⟨m, hget, hseen⟩
  exact ⟨hfol, fun h => hfol (reconcile_mem h)⟩

/-- C9 witness: in a two-message mailbox whose first message is `\Seen`,
the only reconciled entry is the unseen second message. -/
theorem c9_only_unseen_witness :
    2 ∈ searchUnseen [⟨true, "Message-Id: <s@x>".toList, []⟩,
                      ⟨false, "Message-Id: <u@x>".toList, []⟩] ∧
    ∃ m, [(⟨true, "Message-Id: <s@x>".toList, []⟩ : Msg),
          ⟨false, "Message-Id: <u@x>".toList, []⟩][2 - 1]? = some m ∧
      m.seen = false :=
  (c9_remote_index_only_unseen
    [⟨true, "Message-Id: <s@x>".toList, []⟩, ⟨false, "Message-Id: <u@x>".toList, []⟩]
    [] "<u@x>".toList 2).2 (by decide)

/-! ## Claim C8: per-message failure handling and throttling in
`resend_messages` -/

theorem resendGo_append :
    ∀ (a b : List Bool) (cnt : Nat),
    resendGo cnt (a ++ b) = resendGo cnt a ++ resendGo (cnt + a.length) b := by
  intro a
  induction a with
  | nil => intro b cnt; simp [resendGo]
  | cons ok a ih =>
    intro b cnt
    simp only [List.cons_append, resendGo, List.append_eq]
    rw [ih b (cnt + 1)]
    simp only [List.length_cons, List.append_assoc]
    have : cnt + 1 + a.length = cnt + (a.length + 1) := by omega
    rw [this]

theorem resendGo_count_pause :
    ∀ (rest : List Bool) (cnt : Nat),
    (resendGo cnt rest).count (RelayEvent.pause 60) =
      (cnt + rest.length) / 30 - cnt / 30 := by
  intro rest
  induction rest with
  | nil => intro cnt; simp [resendGo]
  | cons ok rest ih =>
    intro cnt
    simp only [resendGo, List.count_append]
    have h1 : (if ok = true
        then [RelayEvent.delivered (cnt + 1), RelayEvent.setSeen (cnt + 1)]
        else [RelayEvent.setUnseen (cnt + 1)]).count (RelayEvent.pause 60) = 0 := by
      cases ok <;> simp [List.count_eq_zero]
    have h2 : (if (cnt + 1) % 30 = 0 then [RelayEvent.pause 60]
        else ([] : List RelayEvent)).count (RelayEvent.pause 60) =
        if (cnt + 1) % 30 = 0 then 1 else 0 := by
      by_cases h30 : (cnt + 1) % 30 = 0 <;> simp [h30]
    rw [h1, h2, ih (cnt + 1)]
    simp only [List.length_cons]
    by_cases h30 : (cnt + 1) % 30 = 0
    · rw [if_pos h30]; omega
    · rw [if_neg h30]; omega

theorem resendGo_events :
    ∀ (rest : List Bool) (cnt i : Nat) (h : i < rest.length),
    (rest.get ⟨i, h⟩ = false →
      RelayEvent.setUnseen (cnt + i + 1) ∈ resendGo cnt rest) ∧
    (rest.get ⟨i, h⟩ = true →
      RelayEvent.delivered (cnt + i + 1) ∈ resendGo cnt rest ∧
      RelayEvent.setSeen (cnt + i + 1) ∈ resendGo cnt rest) := by
  intro rest
  induction rest with
  | nil => intro cnt i h; simp at h
  | cons ok rest ih =>
    intro cnt i h
    cases i with
    | zero =>
      constructor
      · intro hv
        simp only [List.get] at hv
        simp [resendGo, hv]
      · intro hv
        simp only [List.get] at hv
        simp [resendGo, hv]
    | succ j =>
      have hj : j < rest.length := by simp at h; omega
      have hshift : cnt + (j + 1) + 1 = (cnt + 1) + j + 1 := by omega
      constructor
      · intro hv
        simp only [List.get] at hv
        rw [hshift]
        simp only [resendGo, List.mem_append]
        right
        exact ((ih (cnt + 1) j hj).1 hv)
      · intro hv
        simp only [List.get] at hv
        rw [hshift]
        obtain ⟨hd, hs⟩ := (ih (cnt + 1) j hj).2 hv
        constructor <;> (simp only [resendGo, List.mem_append]; right; assumption)

theorem resendGo_pause_block (a : List Bool) (ha : a.length = 30) :
    ∃ pre, resendMessages a = pre ++ [RelayEvent.pause 60] ∧
      RelayEvent.pause 60 ∉ pre := by
  have hsplit : a = a.take 29 ++ a.drop 29 := (List.take_append_drop 29 a).symm
  have hlen29 : (a.take 29).length = 29 := by
    rw [List.length_take]; omega
  have hdrop : (a.drop 29).length = 1 := by
    rw [List.length_drop]; omega
  obtain ⟨x, hx⟩ : ∃ x, a.drop 29 = [x] := by
    cases hd : a.drop 29 with
    | nil => rw [hd] at hdrop; simp at hdrop
    | cons y t =>
      cases ht : t with
      | nil => exact ⟨y, rfl⟩
      | cons z t2 => rw [hd, ht] at hdrop; simp at hdrop
  have h1 : resendMessages a = resendGo 0 (a.take 29) ++ resendGo 29 [x] := by
    unfold resendMessages
    conv_lhs => rw [hsplit, hx]
    rw [resendGo_append, hlen29]
  have h2 : resendGo 29 [x] =
      (if x = true then [RelayEvent.delivered 30, RelayEvent.setSeen 30]
       else [RelayEvent.setUnseen 30]) ++ [RelayEvent.pause 60] := by
    cases x <;> simp [resendGo]
  refine ⟨resendGo 0 (a.take 29) ++
    (if x = true then [RelayEvent.delivered 30, RelayEvent.setSeen 30]
     else [RelayEvent.setUnseen 30]), ?_, ?_⟩
  · rw [h1, h2]
    simp [List.append_assoc]
  · intro hmem
    rcases List.mem_append.mp hmem with hmem | hmem
    · have hc : (resendGo 0 (a.take 29)).count (RelayEvent.pause 60) = 0 := by
        rw [resendGo_count_pause, hlen29]
      exact absurd hmem (List.count_eq_zero.mp hc)
    · cases x <;> simp at hmem

/-- C8.  In `resend_messages`, a failed delivery stores `-FLAGS \Seen` on the
source message and the loop continues (every message of the batch produces
its store event regardless of earlier outcomes); a successful delivery
stores `+FLAGS \Seen`; and a 60-second pause happens exactly once after every
30 processed messages, counting successes and failures alike — in particular
a 30-message prefix always ends with exactly one pause event. -/
theorem c8_relay_failure_and_throttle (outcomes : List Bool) :
    (∀ i (h : i < outcomes.length),
      (outcomes.get ⟨i, h⟩ = false →
        RelayEvent.setUnseen (i + 1) ∈ resendMessages outcomes) ∧
      (outcomes.get ⟨i, h⟩ = true →
        RelayEvent.delivered (i + 1) ∈ resendMessages outcomes ∧
        RelayEvent.setSeen (i + 1) ∈ resendMessages outcomes)) ∧
    (resendMessages outcomes).count (RelayEvent.pause 60) = outcomes.length / 30 ∧
    (∀ a b, outcomes = a ++ b → a.length = 30 →
      resendMessages outcomes = resendMessages a ++ resendGo 30 b ∧
      ∃ pre, resendMessages a = pre ++ [RelayEvent.pause 60] ∧
        RelayEvent.pause 60 ∉ pre) := by
  refine ⟨?_, ?_, ?_⟩
  · intro i h
    have := resendGo_events outcomes 0 i h
    simpa [resendMessages] using this
  · have := resendGo_count_pause outcomes 0
    simpa [resendMessages] using this
  · intro a b hab ha
    constructor
    · rw [hab]
      unfold resendMessages
      rw [resendGo_append, ha]
    · exact resendGo_pause_block a ha

/-- C8 witness: the specification scenario — a batch of 35 where message #31
fails.  Message #31 is flagged unseen, #32 is still processed and flagged
seen, and exactly one pause occurs, at the end of the 30-message prefix. -/
theorem c8_relay_witness :
    RelayEvent.setUnseen 31 ∈
      resendMessages (List.replicate 30 true ++ (false :: List.replicate 4 true)) ∧
    RelayEvent.setSeen 32 ∈
      resendMessages (List.replicate 30 true ++ (false :: List.replicate 4 true)) ∧
    (resendMessages (List.replicate 30 true ++
      (false :: List.replicate 4 true))).count (RelayEvent.pause 60) = 1 ∧
    (∃ pre, resendMessages (List.replicate 30 true) =
      pre ++ [RelayEvent.pause 60] ∧ RelayEvent.pause 60 ∉ pre) := by
  refine ⟨?_, ?_, ?_, ?_⟩
  · exact ((c8_relay_failure_and_throttle
      (List.replicate 30 true ++ (false :: List.replicate 4 true))).1
      30 (by decide)).1 (by decide)
  · exact (((c8_relay_failure_and_throttle
      (List.replicate 30 true ++ (false :: List.replicate 4 true))).1
      31 (by decide)).2 (by decide)).2
  · have := (c8_relay_failure_and_throttle
      (List.replicate 30 true ++ (false :: List.replicate 4 true))).2.1
    simpa using this
  · exact ((c8_relay_failure_and_throttle
      (List.replicate 30 true ++ (false :: List.replicate 4 true))).2.2
      (List.replicate 30 true) (false :: List.replicate 4 true) rfl (by decide)).2

/-! ## Claim C5: a malformed LIST row aborts the whole run, not one folder -/

/-- C5 (amended).  A LIST row whose remainder after the attribute list does
not tokenize to exactly two tokens makes `parse_list` fail (an `assert`,
i.e. an uncaught `AssertionError`), and any row failing to parse makes the
whole `get_names` call — and with it the run — fail before any folder is
processed; the error is not scoped to that one folder. -/
theorem c5_malformed_list_row_fatal :
    (∀ (rows : List Str) (r : Str) (tb : Bool), r ∈ rows → parseList r = none →
      getNames tb rows = none) ∧
    (∀ (row : Str) (attrs : List Attrib) (rest : Str),
      parseParenList (pyStrip row) = some (attrs, rest) →
      (tokenize rest).length ≠ 2 → parseList row = none) := by
  constructor
  · intro rows
    induction rows with
    | nil => intro r tb h; simp at h
    | cons row rows ih =>
      intro r tb hmem hnone
      rcases List.mem_cons.mp hmem with rfl | hmem
      · simp [getNames, hnone]
      · simp only [getNames]
        cases hp : parseList row with
        | none => rfl
        | some v => rw [ih r tb hmem hnone]
  · intro row attrs rest hpp hlen
    unfold parseList
    rw [hpp]
    show (match tokenize rest with
          | [d, n] => some (attrs, d, n)
          | _ => none) = none
    rcases ht : tokenize rest with _ | ⟨d, _ | ⟨n, _ | _⟩⟩
    · rfl
    · rfl
    · rw [ht] at hlen; simp at hlen
    · rfl

/-- C5 witness: the amended behaviour at a concrete malformed remainder. -/
theorem c5_malformed_witness :
    getNames false ["x".toList, "(\\HasNoChildren) \"/\" \"INBOX\" extra".toList] = none ∧
    parseList "(\\HasNoChildren) \"/\" \"INBOX\" extra".toList = none :=
  ⟨(c5_malformed_list_row_fatal).1
      ["x".toList, "(\\HasNoChildren) \"/\" \"INBOX\" extra".toList]
      "(\\HasNoChildren) \"/\" \"INBOX\" extra".toList false (by decide)
      ((c5_malformed_list_row_fatal).2 _
        [Attrib.atom "\\HasNoChildren".toList] " \"/\" \"INBOX\" extra".toList
        rfl (by decide)),
   (c5_malformed_list_row_fatal).2 _
     [Attrib.atom "\\HasNoChildren".toList] " \"/\" \"INBOX\" extra".toList
     rfl (by decide)⟩

/-- C5 counterexample: with a malformed row followed by a well-formed row,
`get_names` fails outright — the claim's "the run continues with the
remaining folders" is false: the well-formed folder on its own parses fine,
yet is never reached once the malformed row has raised. -/
theorem c5_run_does_not_continue :
    getNames false ["(\\HasNoChildren) \"/\" \"INBOX\" extra".toList,
                    "(\\HasNoChildren) \"/\" \"Sent\"".toList] = none ∧
    (getNames false ["(\\HasNoChildren) \"/\" \"Sent\"".toList]).isSome = true ∧
    parseList "(\\HasNoChildren) \"/\" \"Sent\"".toList =
      some ([Attrib.atom "\\HasNoChildren".toList], "/".toList, "Sent".toList) := by
  refine ⟨rfl, rfl, rfl⟩

/-! ## Claim C7: folder-name mapping, `INBOX` rewriting -/

theorem startsWithL_self_append (p t : Str) : startsWithL p (p ++ t) = true := by
  induction p with
  | nil => rfl
  | cons c p ih => simp [startsWithL, ih]

theorem startsWithL_len_le : ∀ (p s : Str), startsWithL p s = true → p.length ≤ s.length := by
  intro p
  induction p with
  | nil => intro s _; simp
  | cons c p ih =>
    intro s h
    cases s with
    | nil => simp [startsWithL] at h
    | cons a s =>
      simp only [startsWithL, Bool.and_eq_true] at h
      have := ih s h.2
      simp only [List.length_cons]
      omega

theorem startsWithL_decompose :
    ∀ (p s : Str), startsWithL p s = true → s = p ++ s.drop p.length := by
  intro p
  induction p with
  | nil => intro s _; simp
  | cons c p ih =>
    intro s h
    cases s with
    | nil => simp [startsWithL] at h
    | cons a s =>
      simp only [startsWithL, Bool.and_eq_true, beq_iff_eq] at h
      obtain ⟨rfl, h2⟩ := h
      simp only [List.length_cons, List.drop_succ_cons, List.cons_append, List.cons.injEq,
        true_and]
      exact ih s h2

theorem beq_head_false_of_contains_false {p c : Char} {ps : List Char}
    (hc : (p :: ps).contains c = false) : (p == c) = false := by
  cases hpc : p == c
  · rfl
  · exfalso
    have hpe : p = c := eq_of_beq hpc
    subst hpe
    simp [List.contains_cons] at hc

theorem startsWithL_append_head :
    ∀ (pat d s : Str), (∀ c, s.head? = some c → pat.contains c = false) →
    startsWithL pat (d ++ s) = startsWithL pat d := by
  intro pat
  induction pat with
  | nil => intro d s _; rfl
  | cons p ps ih =>
    intro d s hs
    cases d with
    | nil =>
      simp only [List.nil_append, startsWithL]
      cases s with
      | nil => rfl
      | cons c t =>
        have hpc : (p == c) = false := beq_head_false_of_contains_false (hs c rfl)
        simp [startsWithL, hpc]
    | cons a d2 =>
      simp only [List.cons_append, startsWithL]
      congr 1
      apply ih d2 s
      intro c hc
      have := hs c hc
      simp only [List.contains_cons, Bool.or_eq_false_iff] at this
      exact this.2

theorem replaceSub_nil (pat repl : Str) : replaceSub pat repl [] = [] := by
  rw [replaceSub]

theorem replaceSub_cons_pos (pat repl : Str) (c : Char) (rest : Str)
    (h1 : pat ≠ []) (h2 : startsWithL pat (c :: rest) = true) :
    replaceSub pat repl (c :: rest) =
      repl ++ replaceSub pat repl ((c :: rest).drop pat.length) := by
  rw [replaceSub, dif_pos ⟨h1, h2⟩]

theorem replaceSub_cons_neg (pat repl : Str) (c : Char) (rest : Str)
    (h : startsWithL pat (c :: rest) = false) :
    replaceSub pat repl (c :: rest) = c :: replaceSub pat repl rest := by
  rw [replaceSub, dif_neg]
  intro hcon
  rw [hcon.2] at h
  simp at h

theorem replaceSub_head (P R t : Str) (hP : P ≠ []) :
    replaceSub P R (P ++ t) = R ++ replaceSub P R t := by
  cases hp : P with
  | nil => exact absurd hp hP
  | cons p ps =>
    rw [← hp]
    have hcons : P ++ t = P.head hP :: (P.tail ++ t) := by
      cases P with
      | nil => exact absurd rfl hP
      | cons x xs => simp
    rw [hcons, replaceSub_cons_pos _ _ _ _ hP (by rw [← hcons]; exact startsWithL_self_append P t)]
    congr 1
    rw [← hcons]
    congr 1
    rw [List.drop_append_of_le_length (le_refl P.length), List.drop_length]
    simp

theorem replaceSub_char_disjoint (P R : Str) (hP : P ≠ []) :
    ∀ (s b : Str), (∀ c ∈ s, P.contains c = false) →
    replaceSub P R (s ++ b) = s ++ replaceSub P R b := by
  intro s
  induction s with
  | nil => intro b _; simp
  | cons c s2 ih =>
    intro b hs
    have hc : P.contains c = false := hs c (List.mem_cons_self _ _)
    have hsw : startsWithL P (c :: (s2 ++ b)) = false := by
      cases hp : P with
      | nil => exact absurd hp hP
      | cons p ps =>
        rw [hp] at hc
        have hpc : (p == c) = false := beq_head_false_of_contains_false hc
        simp [startsWithL, hpc]
    rw [List.cons_append, replaceSub_cons_neg _ _ _ _ hsw,
      ih b (fun c hc2 => hs c (List.mem_cons_of_mem _ hc2))]
    simp

theorem not_startsWithL_of_not_containsSub {P s : Str}
    (h : containsSub P s = false) : startsWithL P s = false := by
  cases s with
  | nil => exact h
  | cons c rest =>
    simp only [containsSub, Bool.or_eq_false_iff] at h
    exact h.1

theorem containsSub_tail {P : Str} {c : Char} {rest : Str}
    (h : containsSub P (c :: rest) = false) : containsSub P rest = false := by
  simp only [containsSub, Bool.or_eq_false_iff] at h
  exact h.2

theorem replaceSub_clean (P R : Str) (hP : P ≠ []) :
    ∀ (s b : Str), containsSub P s = false →
    (∀ c, b.head? = some c → P.contains c = false) →
    replaceSub P R (s ++ b) = s ++ replaceSub P R b := by
  intro s
  induction s with
  | nil => intro b _ _; simp
  | cons c s2 ih =>
    intro b hcs hb
    have hsw : startsWithL P ((c :: s2) ++ b) = false := by
      rw [startsWithL_append_head P (c :: s2) b hb]
      exact not_startsWithL_of_not_containsSub hcs
    rw [List.cons_append] at hsw
    rw [List.cons_append, replaceSub_cons_neg _ _ _ _ hsw,
      ih b (containsSub_tail hcs) hb]
    simp

theorem splitOnSep_emptystr {sep : Str} (hsep : sep ≠ []) :
    splitOnSep sep [] = [[]] := by
  rw [splitOnSep, dif_neg hsep]

theorem splitOnSep_cons_pos {sep : Str} (hsep : sep ≠ []) (c : Char) (rest : Str)
    (h : startsWithL sep (c :: rest) = true) :
    splitOnSep sep (c :: rest) = [] :: splitOnSep sep ((c :: rest).drop sep.length) := by
  rw [splitOnSep, dif_neg hsep, if_pos h]

theorem splitOnSep_cons_neg {sep : Str} (hsep : sep ≠ []) (c : Char) (rest seg : Str)
    (segs : List Str) (h : startsWithL sep (c :: rest) = false)
    (hr : splitOnSep sep rest = seg :: segs) :
    splitOnSep sep (c :: rest) = (c :: seg) :: segs := by
  rw [splitOnSep, dif_neg hsep, if_neg (by simp [h]), hr]

theorem splitOnSep_no_delim (d : Char) :
    ∀ (s : Str), (∀ c ∈ s, c ≠ d) → splitOnSep [d] s = [s] := by
  intro s
  induction s with
  | nil => intro _; exact splitOnSep_emptystr (by simp)
  | cons c rest ih =>
    intro hc
    have hsw : startsWithL [d] (c :: rest) = false := by
      have : c ≠ d := hc c (List.mem_cons_self _ _)
      simp only [startsWithL, Bool.and_eq_true, beq_iff_eq]
      simp only [Bool.and_true]
      exact beq_false_of_ne (fun he => this he.symm)
    exact splitOnSep_cons_neg (by simp) c rest rest []
      hsw (ih (fun x hx => hc x (List.mem_cons_of_mem _ hx)))

theorem splitOnSep_delim_append (d : Char) :
    ∀ (s t : Str), (∀ c ∈ s, c ≠ d) →
    splitOnSep [d] (s ++ d :: t) = s :: splitOnSep [d] t := by
  intro s
  induction s with
  | nil =>
    intro t _
    simp only [List.nil_append]
    rw [splitOnSep_cons_pos (by simp) d t (by simp [startsWithL])]
    rfl
  | cons c s2 ih =>
    intro t hc
    have hsw : startsWithL [d] (c :: (s2 ++ d :: t)) = false := by
      have : c ≠ d := hc c (List.mem_cons_self _ _)
      simp only [startsWithL, Bool.and_true]
      exact beq_false_of_ne (fun he => this he.symm)
    rw [List.cons_append]
    exact splitOnSep_cons_neg (by simp) c (s2 ++ d :: t) s2 (splitOnSep [d] t)
      hsw (ih t (fun x hx => hc x (List.mem_cons_of_mem _ hx)))

theorem splitOnSep_joinSep (d : Char) :
    ∀ (segs : List Str), segs ≠ [] → (∀ s ∈ segs, ∀ c ∈ s, c ≠ d) →
    splitOnSep [d] (joinSep [d] segs) = segs := by
  intro segs
  induction segs with
  | nil => intro h _; exact absurd rfl h
  | cons s segs ih =>
    intro _ hc
    cases segs with
    | nil =>
      show splitOnSep [d] s = [s]
      exact splitOnSep_no_delim d s (hc s (List.mem_cons_self _ _))
    | cons s2 rest =>
      have hjoin : joinSep [d] (s :: s2 :: rest) = s ++ d :: joinSep [d] (s2 :: rest) := by
        show s ++ [d] ++ joinSep [d] (s2 :: rest) = _
        simp
      rw [hjoin, splitOnSep_delim_append d s _ (hc s (List.mem_cons_self _ _)),
        ih (by simp) (fun x hx => hc x (List.mem_cons_of_mem _ hx))]

/-- Replacing `INBOX` by `Inbox` throughout a `.sbd/`-join rewrites exactly
the `INBOX` segments (the separator shares no character with `INBOX`, so no
occurrence spans a boundary). -/
theorem replaceSub_inbox_join :
    ∀ (segs : List Str),
    (∀ s ∈ segs, s = "INBOX".toList ∨ containsSub "INBOX".toList s = false) →
    replaceSub "INBOX".toList "Inbox".toList (joinSep ".sbd/".toList segs) =
      joinSep ".sbd/".toList
        (segs.map (fun s => if s = "INBOX".toList then "Inbox".toList else s)) := by
  intro segs
  induction segs with
  | nil => intro _; exact replaceSub_nil _ _
  | cons s segs ih =>
    intro hseg
    cases segs with
    | nil =>
      show replaceSub "INBOX".toList "Inbox".toList s =
        joinSep ".sbd/".toList [if s = "INBOX".toList then "Inbox".toList else s]
      rcases hseg s (List.mem_cons_self _ _) with rfl | hclean
      · rw [if_pos rfl]
        have h1 : replaceSub "INBOX".toList "Inbox".toList ("INBOX".toList ++ []) =
            "Inbox".toList ++ replaceSub "INBOX".toList "Inbox".toList [] :=
          replaceSub_head _ _ _ (by decide)
        simp only [List.append_nil] at h1
        rw [h1, replaceSub_nil]
        rfl
      · have hne : s ≠ "INBOX".toList := by
          intro he
          subst he
          simp [containsSub, startsWithL_self_append _ []] at hclean
          have := startsWithL_self_append "INBOX".toList []
          simp at this
          rw [this] at hclean
          simp at hclean
        rw [if_neg hne]
        have h1 : replaceSub "INBOX".toList "Inbox".toList (s ++ []) =
            s ++ replaceSub "INBOX".toList "Inbox".toList [] :=
          replaceSub_clean _ _ (by decide) s [] hclean (by intro c hcx; simp at hcx)
        simp only [List.append_nil] at h1
        rw [h1, replaceSub_nil]
        simp [joinSep]
    | cons s2 rest =>
      have hjoin : joinSep ".sbd/".toList (s :: s2 :: rest) =
          s ++ (".sbd/".toList ++ joinSep ".sbd/".toList (s2 :: rest)) := by
        show s ++ ".sbd/".toList ++ joinSep ".sbd/".toList (s2 :: rest) = _
        simp
      have hsepdj : ∀ c ∈ ".sbd/".toList, "INBOX".toList.contains c = false := by decide
      have htail : replaceSub "INBOX".toList "Inbox".toList
          (".sbd/".toList ++ joinSep ".sbd/".toList (s2 :: rest)) =
          ".sbd/".toList ++ replaceSub "INBOX".toList "Inbox".toList
            (joinSep ".sbd/".toList (s2 :: rest)) :=
        replaceSub_char_disjoint _ _ (by decide) _ _ hsepdj
      have hb : ∀ c, (".sbd/".toList ++ joinSep ".sbd/".toList (s2 :: rest)).head? = some c →
          "INBOX".toList.contains c = false := by
        intro c hcx
        have hh : (".sbd/".toList ++ joinSep ".sbd/".toList (s2 :: rest)).head? =
            some '.' := rfl
        rw [hh] at hcx
        have : c = '.' := by
          injection hcx with h
          exact h.symm
        subst this
        decide
      rw [hjoin]
      rcases hseg s (List.mem_cons_self _ _) with rfl | hclean
      · rw [replaceSub_head _ _ _ (by decide), htail,
          ih (fun x hx => hseg x (List.mem_cons_of_mem _ hx))]
        simp only [List.map_cons, if_pos rfl]
        show _ = "Inbox".toList ++ ".sbd/".toList ++
          joinSep ".sbd/".toList ((s2 :: rest).map
            (fun s => if s = "INBOX".toList then "Inbox".toList else s))
        simp
      · have hne : s ≠ "INBOX".toList := by
          intro he
          subst he
          have h1 := startsWithL_self_append "INBOX".toList []
          simp only [List.append_nil] at h1
          have h2 : containsSub "INBOX".toList "INBOX".toList = true := by
            show (startsWithL "INBOX".toList ('I' :: "NBOX".toList) ||
              containsSub "INBOX".toList "NBOX".toList) = true
            rw [show ('I' :: "NBOX".toList : Str) = "INBOX".toList from rfl, h1]
            rfl
          rw [h2] at hclean
          simp at hclean
        rw [replaceSub_clean _ _ (by decide) s _ hclean hb, htail,
          ih (fun x hx => hseg x (List.mem_cons_of_mem _ hx))]
        simp only [List.map_cons, if_neg hne]
        show _ = s ++ ".sbd/".toList ++
          joinSep ".sbd/".toList ((s2 :: rest).map
            (fun s => if s = "INBOX".toList then "Inbox".toList else s))
        simp

/-- C7 (amended).  Folder-name mapping: in flat mode the delimiter-split
segments are joined with `.` and `.mbox` is appended.  In Thunderbird mode
they are joined with `.sbd/`, and when the name begins with the
case-sensitive token `INBOX`, the assignment
`filename = filename.replace("INBOX", "Inbox")` rewrites EVERY occurrence of
`INBOX` in the joined name — not only the leading segment; a name not
beginning with `INBOX` is left entirely unchanged. -/
theorem c7_inbox_rewrite_global (delim : Char) (segs : List Str)
    (hne : segs ≠ [])
    (hdelim : ∀ s ∈ segs, ∀ c ∈ s, c ≠ delim)
    (hseg : ∀ s ∈ segs, s = "INBOX".toList ∨ containsSub "INBOX".toList s = false) :
    folderFilename false [delim] (joinSep [delim] segs) =
      joinSep ".".toList segs ++ ".mbox".toList ∧
    folderFilename true [delim] (joinSep [delim] segs) =
      (if segs.head? = some "INBOX".toList then
        joinSep ".sbd/".toList
          (segs.map (fun s => if s = "INBOX".toList then "Inbox".toList else s))
       else joinSep ".sbd/".toList segs) := by
  have hsplit := splitOnSep_joinSep delim segs hne hdelim
  constructor
  · simp only [folderFilename, Bool.false_eq_true, if_false]
    rw [hsplit]
  · simp only [folderFilename, if_true]
    rw [hsplit]
    cases segs with
    | nil => exact absurd rfl hne
    | cons s0 rest =>
      by_cases h0 : s0 = "INBOX".toList
      · subst h0
        have hsw : startsWithL "INBOX".toList
            (joinSep ".sbd/".toList ("INBOX".toList :: rest)) = true := by
          cases rest with
          | nil =>
            show startsWithL "INBOX".toList "INBOX".toList = true
            have := startsWithL_self_append "INBOX".toList []
            simpa using this
          | cons r rs =>
            show startsWithL "INBOX".toList
              ("INBOX".toList ++ ".sbd/".toList ++ joinSep ".sbd/".toList (r :: rs)) = true
            rw [List.append_assoc]
            exact startsWithL_self_append _ _
        rw [if_pos hsw, replaceSub_inbox_join _ hseg]
        rw [if_pos (show (("INBOX".toList :: rest) : List Str).head? =
          some "INBOX".toList from rfl)]
      · have hclean : containsSub "INBOX".toList s0 = false := by
          rcases hseg s0 (List.mem_cons_self _ _) with he | hc
          · exact absurd he h0
          · exact hc
        have hsw : startsWithL "INBOX".toList
            (joinSep ".sbd/".toList (s0 :: rest)) = false := by
          cases rest with
          | nil =>
            show startsWithL "INBOX".toList s0 = false
            exact not_startsWithL_of_not_containsSub hclean
          | cons r rs =>
            show startsWithL "INBOX".toList
              (s0 ++ ".sbd/".toList ++ joinSep ".sbd/".toList (r :: rs)) = false
            rw [List.append_assoc,
              startsWithL_append_head "INBOX".toList s0 _ ?_]
            · exact not_startsWithL_of_not_containsSub hclean
            · intro c hcx
              have hh : (".sbd/".toList ++ joinSep ".sbd/".toList (r :: rs)).head? =
                  some '.' := rfl
              rw [hh] at hcx
              have : c = '.' := by injection hcx with h; exact h.symm
              subst this
              decide
        rw [if_neg (by simp only [hsw]; simp),
          if_neg (by simp only [List.head?_cons, Option.some.injEq]; exact h0)]

/-- C7 witness: the amended mapping at the concrete name
`INBOX/INBOX` with delimiter `/`. -/
theorem c7_inbox_witness :
    folderFilename false ['/'] (joinSep ['/'] ["INBOX".toList, "INBOX".toList]) =
      joinSep ".".toList ["INBOX".toList, "INBOX".toList] ++ ".mbox".toList ∧
    folderFilename true ['/'] (joinSep ['/'] ["INBOX".toList, "INBOX".toList]) =
      (if ["INBOX".toList, "INBOX".toList].head? = some "INBOX".toList then
        joinSep ".sbd/".toList
          (["INBOX".toList, "INBOX".toList].map
            (fun s => if s = "INBOX".toList then "Inbox".toList else s))
       else joinSep ".sbd/".toList ["INBOX".toList, "INBOX".toList]) :=
  c7_inbox_rewrite_global '/' ["INBOX".toList, "INBOX".toList]
    (by decide) (by decide) (by decide)

/-- C7 counterexample: mapping the remote name `INBOX/INBOX` (delimiter `/`)
in Thunderbird mode yields `Inbox.sbd/Inbox` — the second, non-leading
occurrence of `INBOX` is rewritten too, contradicting the claim that every
occurrence other than the leading segment is left unchanged (which would
give `Inbox.sbd/INBOX`). -/
theorem c7_inbox_rewrites_all_occurrences :
    folderFilename true ['/'] "INBOX/INBOX".toList = "Inbox.sbd/Inbox".toList ∧
    "Inbox.sbd/Inbox".toList ≠ "Inbox.sbd/INBOX".toList := by
  constructor
  · have hname : "INBOX/INBOX".toList = "INBOX".toList ++ '/' :: "INBOX".toList := by
      decide
    have hsplit : splitOnSep ['/'] "INBOX/INBOX".toList =
        ["INBOX".toList, "INBOX".toList] := by
      rw [hname, splitOnSep_delim_append '/' _ _ (by decide),
        splitOnSep_no_delim '/' _ (by decide)]
    have hjoin : joinSep ".sbd/".toList ["INBOX".toList, "INBOX".toList] =
        "INBOX.sbd/INBOX".toList := by decide
    have hrepl := replaceSub_inbox_join ["INBOX".toList, "INBOX".toList] (by decide)
    simp only [folderFilename, if_true]
    rw [hsplit]
    rw [if_pos ?hsw]
    case hsw =>
      rw [hjoin]
      decide
    rw [hrepl]
    decide
  · decide

/-! ## Claim C4: mbox boundary quoting -/

theorem takeWhile_append_head (p : Char → Bool) :
    ∀ (l s : Str), (∀ c, s.head? = some c → p c = false) →
    (l ++ s).takeWhile p = l.takeWhile p := by
  intro l
  induction l with
  | nil =>
    intro s hs
    cases s with
    | nil => rfl
    | cons c t =>
      simp only [List.nil_append, List.takeWhile]
      rw [hs c rfl]
  | cons c l2 ih =>
    intro s hs
    simp only [List.cons_append, List.takeWhile]
    cases hp : p c
    · rfl
    · show c :: (l2 ++ s).takeWhile p = c :: l2.takeWhile p
      rw [ih s hs]

theorem dropWhile_append_head (p : Char → Bool) :
    ∀ (l s : Str), (∀ c, s.head? = some c → p c = false) →
    (l ++ s).dropWhile p = l.dropWhile p ++ s := by
  intro l
  induction l with
  | nil =>
    intro s hs
    cases s with
    | nil => rfl
    | cons c t =>
      simp only [List.nil_append, List.dropWhile]
      rw [hs c rfl]
  | cons c l2 ih =>
    intro s hs
    simp only [List.cons_append, List.dropWhile]
    cases hp : p c
    · simp
    · show (l2 ++ s).dropWhile p = l2.dropWhile p ++ s
      exact ih s hs

theorem dropWhile_eq_drop_len (p : Char → Bool) :
    ∀ (l : Str), l.dropWhile p = l.drop (l.takeWhile p).length := by
  intro l
  induction l with
  | nil => rfl
  | cons c l2 ih =>
    simp only [List.takeWhile, List.dropWhile]
    cases hp : p c
    · simp
    · simp only [List.length_cons, List.drop_succ_cons]
      exact ih

theorem fromQuote_nil : fromQuote [] = [] := by rw [fromQuote]

theorem fromQuote_cons_other {c : Char} (rest : Str) (h : c ≠ '\n') :
    fromQuote (c :: rest) = c :: fromQuote rest := by
  rw [fromQuote, if_neg h]

theorem fromQuote_append :
    ∀ (l X : Str), '\n' ∉ l → fromQuote (l ++ X) = l ++ fromQuote X := by
  intro l
  induction l with
  | nil => intro X _; rfl
  | cons c l2 ih =>
    intro X hl
    have hc : c ≠ '\n' := fun he => hl (he ▸ List.mem_cons_self _ _)
    rw [List.cons_append, fromQuote_cons_other _ hc,
      ih X (fun hm => hl (List.mem_cons_of_mem _ hm))]
    rfl

theorem fromQuote_line (l s : Str) (hl : '\n' ∉ l)
    (hs : s = [] ∨ ∃ t, s = '\n' :: t) :
    fromQuote ('\n' :: (l ++ s)) =
      '\n' :: ((if startsWithL fromTok (l.dropWhile (fun x => x == '>'))
        then '>' :: l else l) ++ fromQuote s) := by
  have hhead : ∀ c, s.head? = some c → (c == '>') = false := by
    rcases hs with rfl | ⟨t, rfl⟩
    · intro c hc; simp at hc
    · intro c hc
      simp only [List.head?_cons, Option.some.injEq] at hc
      subst hc
      decide
  have hheadF : ∀ c, s.head? = some c → fromTok.contains c = false := by
    rcases hs with rfl | ⟨t, rfl⟩
    · intro c hc; simp at hc
    · intro c hc
      simp only [List.head?_cons, Option.some.injEq] at hc
      subst hc
      decide
  have htw : (l ++ s).takeWhile (fun x => x == '>') = l.takeWhile (fun x => x == '>') :=
    takeWhile_append_head _ l s hhead
  have hdk : l.dropWhile (fun x => x == '>') =
      l.drop (l.takeWhile (fun x => x == '>')).length := dropWhile_eq_drop_len _ l
  have hklen : (l.takeWhile (fun x => x == '>')).length ≤ l.length :=
    takeWhile_len_le _ l
  have hdrop : (l ++ s).drop (l.takeWhile (fun x => x == '>')).length =
      l.drop (l.takeWhile (fun x => x == '>')).length ++ s :=
    List.drop_append_of_le_length hklen
  rw [fromQuote, if_pos rfl, htw, hdrop]
  have hswc : startsWithL fromTok
      (l.drop (l.takeWhile (fun x => x == '>')).length ++ s) =
      startsWithL fromTok (l.drop (l.takeWhile (fun x => x == '>')).length) :=
    startsWithL_append_head fromTok _ s hheadF
  by_cases hq : startsWithL fromTok
      (l.drop (l.takeWhile (fun x => x == '>')).length) = true
  · rw [if_pos (by rw [hswc]; exact hq)]
    have h5 : (5 : Nat) ≤ (l.drop (l.takeWhile (fun x => x == '>')).length).length :=
      startsWithL_len_le fromTok _ hq
    have hd5 : (l.drop (l.takeWhile (fun x => x == '>')).length ++ s).drop 5 =
        (l.drop (l.takeWhile (fun x => x == '>')).length).drop 5 ++ s :=
      List.drop_append_of_le_length h5
    rw [hd5, fromQuote_append _ _
      (fun hm => hl (List.mem_of_mem_drop (List.mem_of_mem_drop hm)))]
    have hq2 : startsWithL fromTok (l.dropWhile (fun x => x == '>')) = true := by
      rw [hdk]; exact hq
    rw [if_pos hq2]
    have hrepl : l.takeWhile (fun x => x == '>') =
        List.replicate (l.takeWhile (fun x => x == '>')).length '>' := by
      rw [List.eq_replicate_iff]
      refine ⟨rfl, ?_⟩
      intro b hb
      have := List.mem_takeWhile_imp hb
      exact eq_of_beq this
    have hcut : l.dropWhile (fun x => x == '>') =
        fromTok ++ (l.dropWhile (fun x => x == '>')).drop 5 := by
      have := startsWithL_decompose fromTok (l.dropWhile (fun x => x == '>')) hq2
      simpa using this
    have hltot : l = l.takeWhile (fun x => x == '>') ++ l.dropWhile (fun x => x == '>') :=
      (List.takeWhile_append_dropWhile _ _).symm
    conv_rhs => rw [hltot, hcut, hrepl]
    rw [← hdk]
    simp [List.append_assoc]
  · rw [if_neg (by rw [hswc]; exact hq)]
    rw [fromQuote_append _ _ hl]
    rw [if_neg (show ¬startsWithL fromTok
      (l.dropWhile (fun x => x == '>')) = true by rw [hdk]; exact hq)]

/-- The tail of a newline-joined text: one leading newline before each
subsequent line. -/
def tailNL : List Str → Str
  | [] => []
  | l :: ls => '\n' :: (l ++ tailNL ls)

theorem joinSep_eq_tailNL : ∀ (ls : List Str) (l : Str),
    joinSep ['\n'] (l :: ls) = l ++ tailNL ls := by
  intro ls
  induction ls with
  | nil => intro l; simp [joinSep, tailNL]
  | cons l2 rest ih =>
    intro l
    show l ++ ['\n'] ++ joinSep ['\n'] (l2 :: rest) = l ++ tailNL (l2 :: rest)
    rw [ih l2]
    simp [tailNL]

theorem tailNL_shape (ls : List Str) :
    tailNL ls = [] ∨ ∃ t, tailNL ls = '\n' :: t := by
  cases ls with
  | nil => left; rfl
  | cons l rest => right; exact ⟨l ++ tailNL rest, rfl⟩

theorem fromQuote_tailNL : ∀ (ls : List Str), (∀ l ∈ ls, '\n' ∉ l) →
    fromQuote (tailNL ls) = tailNL (ls.map (fun l =>
      if startsWithL fromTok (l.dropWhile (fun x => x == '>')) then '>' :: l else l)) := by
  intro ls
  induction ls with
  | nil => intro _; exact fromQuote_nil
  | cons l rest ih =>
    intro hls
    show fromQuote ('\n' :: (l ++ tailNL rest)) = _
    rw [fromQuote_line l (tailNL rest) (hls l (List.mem_cons_self _ _))
      (tailNL_shape rest), ih (fun x hx => hls x (List.mem_cons_of_mem _ hx))]
    rfl

theorem replaceSub_nl_append (repl : Str) :
    ∀ (l X : Str), '\n' ∉ l →
    replaceSub ('\n' :: fromTok) repl (l ++ X) = l ++ replaceSub ('\n' :: fromTok) repl X := by
  intro l
  induction l with
  | nil => intro X _; rfl
  | cons c l2 ih =>
    intro X hl
    have hc : c ≠ '\n' := fun he => hl (he ▸ List.mem_cons_self _ _)
    have hsw : startsWithL ('\n' :: fromTok) (c :: (l2 ++ X)) = false := by
      simp only [startsWithL]
      have : ('\n' == c) = false := beq_false_of_ne (fun he => hc he.symm)
      rw [this]
      rfl
    rw [List.cons_append, replaceSub_cons_neg _ _ _ _ hsw,
      ih X (fun hm => hl (List.mem_cons_of_mem _ hm))]
    rfl

theorem tbSub_line (l s : Str) (hl : '\n' ∉ l)
    (hs : s = [] ∨ ∃ t, s = '\n' :: t) :
    replaceSub ('\n' :: fromTok) ('\n' :: ' ' :: fromTok) ('\n' :: (l ++ s)) =
      '\n' :: ((if startsWithL fromTok l then ' ' :: l else l) ++
        replaceSub ('\n' :: fromTok) ('\n' :: ' ' :: fromTok) s) := by
  have hheadF : ∀ c, s.head? = some c → fromTok.contains c = false := by
    rcases hs with rfl | ⟨t, rfl⟩
    · intro c hc; simp at hc
    · intro c hc
      simp only [List.head?_cons, Option.some.injEq] at hc
      subst hc
      decide
  have hswc : startsWithL fromTok (l ++ s) = startsWithL fromTok l :=
    startsWithL_append_head fromTok l s hheadF
  by_cases hq : startsWithL fromTok l = true
  · have hsw : startsWithL ('\n' :: fromTok) ('\n' :: (l ++ s)) = true := by
      simp only [startsWithL, hswc, hq]
      rfl
    rw [replaceSub_cons_pos _ _ _ _ (by simp) hsw]
    have hlen6 : ('\n' :: fromTok).length = 6 := rfl
    rw [hlen6]
    have h5 : (5 : Nat) ≤ l.length := startsWithL_len_le fromTok l hq
    have hd : ('\n' :: (l ++ s)).drop 6 = l.drop 5 ++ s := by
      show (l ++ s).drop 5 = l.drop 5 ++ s
      exact List.drop_append_of_le_length h5
    rw [hd, replaceSub_nl_append _ _ _ (fun hm => hl (List.mem_of_mem_drop hm)),
      if_pos hq]
    have hcut : l = fromTok ++ l.drop 5 := by
      have := startsWithL_decompose fromTok l hq
      simpa using this
    conv_rhs => rw [hcut]
    simp [List.append_assoc]
  · have hsw : startsWithL ('\n' :: fromTok) ('\n' :: (l ++ s)) = false := by
      simp only [startsWithL, hswc]
      cases hv : startsWithL fromTok l
      · rfl
      · exact absurd hv hq
    rw [replaceSub_cons_neg _ _ _ _ hsw,
      replaceSub_nl_append _ _ _ hl, if_neg hq]

theorem tbSub_tailNL : ∀ (ls : List Str), (∀ l ∈ ls, '\n' ∉ l) →
    replaceSub ('\n' :: fromTok) ('\n' :: ' ' :: fromTok) (tailNL ls) =
      tailNL (ls.map (fun l => if startsWithL fromTok l then ' ' :: l else l)) := by
  intro ls
  induction ls with
  | nil => intro _; exact replaceSub_nil _ _
  | cons l rest ih =>
    intro hls
    show replaceSub ('\n' :: fromTok) ('\n' :: ' ' :: fromTok)
      ('\n' :: (l ++ tailNL rest)) = _
    rw [tbSub_line l (tailNL rest) (hls l (List.mem_cons_self _ _))
      (tailNL_shape rest), ih (fun x hx => hls x (List.mem_cons_of_mem _ hx))]
    rfl

/-- C4.  The boundary-quoting transforms of `download_messages`, applied to
a normalized text viewed as a first line followed by newline-preceded lines:
in the default mode every line (after the first) consisting of zero or more
`>` followed by the literal `From ` gains exactly one additional leading
`>`; in the mutually exclusive Thunderbird mode every line (after the first)
beginning with `From ` instead gains one leading space; consequently a body
line exactly `From spoofed` is archived as `>From spoofed` (resp.
` From spoofed`) and never as an unquoted `From `-prefixed line. -/
theorem c4_boundary_quoting (data l0 : Str) (ls : List Str)
    (h0 : '\n' ∉ l0) (hle : ∀ l ∈ ls, '\n' ∉ l)
    (htext : replaceSub ['\r'] [] (pyStrip data) = joinSep ['\n'] (l0 :: ls)) :
    serializeBody false data =
      joinSep ['\n'] (l0 :: ls.map (fun l =>
        if startsWithL fromTok (l.dropWhile (fun x => x == '>'))
        then '>' :: l else l)) ∧
    serializeBody true data =
      joinSep ['\n'] (l0 :: ls.map (fun l =>
        if startsWithL fromTok l then ' ' :: l else l)) ∧
    (if startsWithL fromTok ("From spoofed".toList.dropWhile (fun x => x == '>'))
      then '>' :: "From spoofed".toList else "From spoofed".toList) =
      ">From spoofed".toList ∧
    (if startsWithL fromTok "From spoofed".toList
      then ' ' :: "From spoofed".toList else "From spoofed".toList) =
      " From spoofed".toList := by
  refine ⟨?_, ?_, by decide, by decide⟩
  · show fromQuote (replaceSub ['\r'] [] (pyStrip data)) = _
    rw [htext, joinSep_eq_tailNL, fromQuote_append _ _ h0, fromQuote_tailNL ls hle,
      joinSep_eq_tailNL]
  · show replaceSub ('\n' :: fromTok) ('\n' :: ' ' :: fromTok)
      (replaceSub ['\r'] [] (pyStrip data)) = _
    rw [htext, joinSep_eq_tailNL, replaceSub_nl_append _ _ _ h0,
      tbSub_tailNL ls hle, joinSep_eq_tailNL]

/-- C4 witness: quoting of the message text `H: v` + newline +
`From spoofed` in both modes. -/
theorem c4_boundary_witness :
    serializeBody false "H: v\nFrom spoofed".toList =
      joinSep ['\n'] ["H: v".toList,
        (if startsWithL fromTok ("From spoofed".toList.dropWhile (fun x => x == '>'))
         then '>' :: "From spoofed".toList else "From spoofed".toList)] ∧
    serializeBody true "H: v\nFrom spoofed".toList =
      joinSep ['\n'] ["H: v".toList,
        (if startsWithL fromTok "From spoofed".toList
         then ' ' :: "From spoofed".toList else "From spoofed".toList)] := by
  have htext : replaceSub ['\r'] [] (pyStrip "H: v\nFrom spoofed".toList) =
      joinSep ['\n'] ["H: v".toList, "From spoofed".toList] := by
    have hstrip : pyStrip "H: v\nFrom spoofed".toList = "H: v\nFrom spoofed".toList := by
      decide
    rw [hstrip]
    have hnocr := replaceSub_char_disjoint ['\r'] [] (by simp)
      "H: v\nFrom spoofed".toList [] (by decide)
    simp only [List.append_nil] at hnocr
    rw [hnocr, replaceSub_nil]
    decide
  have hmain := c4_boundary_quoting "H: v\nFrom spoofed".toList "H: v".toList
    ["From spoofed".toList] (by decide) (by decide) htext
  exact ⟨by rw [hmain.1]; rfl, by rw [hmain.2.1]; rfl⟩

end ImapBackup
